import Mathlib

/-
Verification of the bond ETF collateral-rate accumulator (src/main.py).

The pandas program is shallowly embedded as follows.  A decoded spreadsheet
is a list of header names plus a list of rows of cells; a cell is missing,
numeric (an exact rational), or non-numeric text.  Nullable Int64 columns
become lists of Option Int.  Python dicts over fund codes are modelled by
association lists in insertion order together with a last-binding-wins
lookup, which is extensionally the dict semantics produced by
dict(zip(codes, rates)) and dict.update.  Exceptions of a fallible step are
modelled by Option results.  Python string comparison (used by sorted) is
lexicographic comparison of code points, embedded as charListLe below.
-/

namespace BondEtf

/-- A decoded spreadsheet cell: missing (NA), numeric, or non-numeric text.
Numeric cells are exact rationals; pandas to_numeric with the coercing error
mode sends text that is not a number to NA, so Cell.str stands for genuinely
non-numeric content (numeric content is represented as Cell.num by the
decode abstraction). -/
inductive Cell where
  | na : Cell
  | num : ℚ → Cell
  | str : String → Cell
deriving DecidableEq

/-- Does the pattern occur as a contiguous block at the head of the list. -/
def startsWith : List Char → List Char → Bool
  | [], _ => true
  | _ :: _, [] => false
  | p :: ps, c :: cs => p == c && startsWith ps cs

/-- Does the pattern occur as a contiguous block anywhere in the list. -/
def containsSub (pat : List Char) : List Char → Bool
  | [] => startsWith pat []
  | c :: cs => startsWith pat (c :: cs) || containsSub pat cs

/-- Substring test on strings, modelling the Python membership test of one
string in another. -/
def hasSub (s pat : String) : Bool := containsSub pat.toList s.toList

/-- Lexicographic comparison of character lists by code point, the order
Python uses to compare strings. -/
def charListLe : List Char → List Char → Bool
  | [], _ => true
  | _ :: _, [] => false
  | a :: as, b :: bs => if a = b then charListLe as bs else decide (a < b)

/-- Python string comparison, lexicographic on code points. -/
def strLe (a b : String) : Bool := charListLe a.toList b.toList

/-- pandas to_numeric with the coercing error mode: numbers pass through,
NA and non-numeric text become NA (none). -/
def toNumQ : Cell → Option ℚ
  | Cell.num q => some q
  | _ => none

/-- Is the cell missing (pandas isna on the raw cell). -/
def isNA : Cell → Bool
  | Cell.na => true
  | _ => false

/-- Round half to even on rationals: the rounding used by pandas
Series.round(0) (numpy rounding) and by the Python builtin round. -/
def roundHalfEven (q : ℚ) : Int :=
  if q - ⌊q⌋ < 1 / 2 then ⌊q⌋
  else if 1 / 2 < q - ⌊q⌋ then ⌊q⌋ + 1
  else if ⌊q⌋ % 2 = 0 then ⌊q⌋ else ⌊q⌋ + 1

/-- A raw source file as the parser sees it after decoding: the original
filename plus the decoded header names and data rows.  The exchange-specific
header offset (main.py lines 79-84: skip 4 rows for files whose name carries
the secondary-exchange marker, else 2) is applied by the decode step
(lines 87-99), which this model abstracts: decoded holds the header row and
the data rows below it, and decoded = none models a file on which the Excel
read and both CSV fallback reads raise, so that read_file_data itself
raises. -/
structure RawFile where
  filename : String
  decoded : Option (List String × List (List Cell))
deriving DecidableEq

/-- Column resolution of main.py lines 101-109: the first header containing
the code marker and the first header containing the rate marker are looked
up by substring; if either search fails, BOTH selections fall back to fixed
positions (index 0 for the code and index 2 for the rate, or index 1 when
only two columns exist).  The result is the pair of column indices of the
chosen columns; none models the IndexError the positional fallback raises on
a frame with fewer than two columns. -/
def resolve_cols (cols : List String) : Option (Nat × Nat) :=
  match cols.findIdx? (fun c => hasSub c "代码"),
        cols.findIdx? (fun c => hasSub c "折算") with
  | some i, some j => some (i, j)
  | _, _ =>
      if 2 < cols.length then some (0, 2)
      else if cols.length = 2 then some (0, 1)
      else none

/-- The data rows kept by the cleaning steps of main.py lines 112-117: first
dropna on the code column, then to_numeric with coercion followed by a
second dropna, leaving exactly the rows whose code cell is numeric. -/
def keptRows (ic : Nat) (rows : List (List Cell)) : List (List Cell) :=
  (rows.filter (fun r => !(isNA (r.getD ic Cell.na)))).filter
    (fun r => (toNumQ (r.getD ic Cell.na)).isSome)

/-- The secondary-exchange unit correction of main.py lines 123-125:
multiply the rate by 100 exactly when the marker is present. -/
def scaleRate (marker : Bool) (q : ℚ) : ℚ := if marker then q * 100 else q

/-- The integer value astype Int64 gives a numeric code cell (only used on
cells whose rational value has denominator 1). -/
def codeInt (c : Cell) : Int :=
  match toNumQ c with
  | some q => q.num
  | none => 0

/-- One output entry of the parser for one kept row: the integer code and
the unit-corrected, half-even-rounded nullable rate (main.py lines 119-130). -/
def rowEntry (marker : Bool) (ic ir : Nat) (r : List Cell) : Int × Option Int :=
  (codeInt (r.getD ic Cell.na),
   (toNumQ (r.getD ir Cell.na)).map (fun q => roundHalfEven (scaleRate marker q)))

/-- main.py lines 71-130 (read_file_data): decode the file, resolve the code
and rate columns, drop rows without a numeric code, coerce the rate,
multiply it by 100 when the filename carries the secondary-exchange marker,
round half-even to integers, and return the code-to-rate association in row
order.  none models any exception escaping the function: a failed decode, an
IndexError from the positional fallback, or astype Int64 on a non-integral
code. -/
def read_file_data (f : RawFile) : Option (List (Int × Option Int)) :=
  match f.decoded with
  | none => none
  | some (cols, rows) =>
    match resolve_cols cols with
    | none => none
    | some (ic, ir) =>
      let rows2 := keptRows ic rows
      if rows2.all (fun r => ((toNumQ (r.getD ic Cell.na)).getD 0).den = 1) then
        some (rows2.map (rowEntry (hasSub f.filename "深圳") ic ir))
      else none

/-- The characters after the last path separator. -/
def basenameChars (l : List Char) : List Char :=
  l.foldl (fun acc c => if c = '/' then [] else acc ++ [c]) []

/-- os.path.basename on a POSIX path. -/
def basename (s : String) : String := String.mk (basenameChars s.toList)

/-- Do eight consecutive digit characters start at offset i of the list. -/
def runAt (l : List Char) (i : Nat) : Bool :=
  decide (8 ≤ (l.drop i).length) && ((l.drop i).take 8).all Char.isDigit

/-- The leftmost window of eight consecutive digits, modelling the regex
search for eight digits on main.py line 35. -/
def find8 : List Char → Option (List Char)
  | [] => none
  | c :: cs => if runAt (c :: cs) 0 then some ((c :: cs).take 8) else find8 cs

/-- Slice an eight-character window as YYYY/MM/DD (main.py line 39). -/
def format8 (w : List Char) : String :=
  String.mk (w.take 4) ++ "/" ++ String.mk ((w.drop 4).take 2) ++ "/"
    ++ String.mk ((w.drop 6).take 2)

/-- main.py lines 30-39 (extract_date_from_filename). -/
def extract_date_from_filename (filename : String) : Option String :=
  (find8 (basename filename).toList).map format8

/-- The accumulator table: the two fixed identity columns (nullable integer
fund codes and fund names) and the ordered list of date columns, one
nullable integer rate per fund row. -/
structure Table where
  codes : List (Option Int)
  names : List String
  dateCols : List (String × List (Option Int))
deriving DecidableEq

/-- Column names in dataframe order: the fixed identity columns first, then
the date columns in their stored order. -/
def columns (t : Table) : List String :=
  "基金代码" :: "基金简称" :: t.dateCols.map Prod.fst

/-- A per-file or combined code-to-rate mapping, as an association list in
insertion order. -/
abbrev FundMap := List (Int × Option Int)

/-- One step of the dict lookup fold: a later binding of the key overrides
an earlier one. -/
def dictStep (k : Int) (acc : Option (Option Int)) (p : Int × Option Int) :
    Option (Option Int) :=
  if p.1 = k then some p.2 else acc

/-- Lookup in the mapping built by dict(zip(codes, rates)) and successive
dict.update calls: the last binding of a key wins; none means the key is
absent. -/
def dictLookup (m : FundMap) (k : Int) : Option (Option Int) :=
  m.foldl (dictStep k) none

/-- Dataframe column assignment at name d: replace the column named d in
place when it is present, else append it on the right. -/
def setDateColumn (t : Table) (d : String) (col : List (Option Int)) : Table :=
  if (t.dateCols.map Prod.fst).contains d then
    { t with dateCols := t.dateCols.map (fun p => if p.1 = d then (d, col) else p) }
  else
    { t with dateCols := t.dateCols ++ [(d, col)] }

/-- The values of the date column named d, when present. -/
def getColumn (t : Table) (d : String) : Option (List (Option Int)) :=
  (t.dateCols.find? (fun p => p.1 == d)).map Prod.snd

/-- The combined per-date mapping of main.py lines 134-141: each file is
parsed, a file whose read raises is skipped, and the per-file mappings are
merged with dict.update, so later files override earlier ones. -/
def combined_map (file_list : List RawFile) : FundMap :=
  (file_list.filterMap read_file_data).flatten

/-- main.py lines 132-145 (process_date_group): build the combined mapping
for the date and overwrite the date column of the accumulator with the
mapped fund codes; a fund code absent from the combined mapping (or itself
null) gets NA.  The re-coercion of the fund code column on line 143 is the
identity on the nullable-integer representation this model stores, so it is
not repeated here. -/
def process_date_group (date_str : String) (file_list : List RawFile)
    (df_result : Table) : Table :=
  let m := combined_map file_list
  setDateColumn df_result date_str
    (df_result.codes.map (fun code => (code.bind (fun c => (dictLookup m c).join))))

/-- main.py lines 147-150 (sort_columns): sort the date column names
ascending by Python string comparison and reindex the frame as the fixed
columns followed by the sorted date columns (the reindexing by name is the
filterMap of the name lookup). -/
def sort_columns (df : Table) : Table :=
  let date_cols := (df.dateCols.map Prod.fst).insertionSort (fun a b => strLe a b = true)
  { df with dateCols := date_cols.filterMap (fun d => df.dateCols.find? (fun p => p.1 == d)) }

/-- Python round(x, 2): round half to even at two decimal places. -/
def round2 (q : ℚ) : ℚ := (roundHalfEven (q * 100) : ℚ) / 100

/-- main.py lines 240-251: identify the latest date column as the last date
column of the (sorted) table, drop its nulls, and report the column name,
the count of non-null values and their mean rounded to two decimals (0 when
the column is all null).  none models the branch with no date columns, where
no summary is produced. -/
def buildSummary (t : Table) : Option (String × Nat × ℚ) :=
  match t.dateCols.getLast? with
  | none => none
  | some (latest, col) =>
    let valid := col.filterMap id
    let count := valid.length
    let avg := if 0 < count then round2 ((valid.map (fun n => (n : ℚ))).sum / count) else 0
    some (latest, count, avg)

/-! Helper lemmas about rounding. -/

/-- Half-even rounding of an integral rational is its numerator. -/
lemma roundHalfEven_den_one (q : ℚ) (h : q.den = 1) : roundHalfEven q = q.num := by
  unfold roundHalfEven
  have hq : (q.num : ℚ) = q := by
    have h2 := Rat.num_div_den q
    rw [h] at h2
    simpa using h2
  have hfl : ⌊q⌋ = q.num := by
    rw [show q = ((q.num : ℤ) : ℚ) from hq.symm]
    exact Int.floor_intCast q.num
  simp [hfl, hq]

/-- Half-even rounding lands on a nearest integer: the result is within one
half of the input. -/
lemma abs_roundHalfEven_sub (q : ℚ) : |(roundHalfEven q : ℚ) - q| ≤ 1 / 2 := by
  have h0 : (⌊q⌋ : ℚ) ≤ q := Int.floor_le q
  have h1 : q < ⌊q⌋ + 1 := Int.lt_floor_add_one q
  unfold roundHalfEven
  split_ifs with hc1 hc2 hc3
  · rw [abs_le]
    constructor <;> linarith
  · rw [abs_le]
    constructor <;> push_cast <;> linarith
  · have he : q - ⌊q⌋ = 1 / 2 := le_antisymm (not_lt.mp hc2) (not_lt.mp hc1)
    rw [abs_le]
    constructor <;> linarith
  · have he : q - ⌊q⌋ = 1 / 2 := le_antisymm (not_lt.mp hc2) (not_lt.mp hc1)
    rw [abs_le]
    constructor <;> push_cast <;> linarith

/-- Rounding at two decimals lands within half a cent of the input. -/
lemma abs_round2_sub (q : ℚ) : |round2 q - q| ≤ 1 / 200 := by
  unfold round2
  have h := abs_roundHalfEven_sub (q * 100)
  have h100 : (0 : ℚ) < 100 := by norm_num
  have heq : (roundHalfEven (q * 100) : ℚ) / 100 - q
      = ((roundHalfEven (q * 100) : ℚ) - q * 100) / 100 := by ring
  rw [heq, abs_div, abs_of_pos h100]
  rw [div_le_div_iff₀ h100 (by norm_num : (0 : ℚ) < 200)]
  nlinarith [h]

/-- A two-decimal rounded value scaled by 100 is integral. -/
lemma round2_mul_100_den (q : ℚ) : (round2 q * 100).den = 1 := by
  unfold round2
  rw [div_mul_cancel₀ _ (by norm_num : (100 : ℚ) ≠ 0)]
  exact Rat.den_intCast _

/-! Helper lemmas about the dict model. -/

/-- Folding the lookup step over bindings of other keys leaves the
accumulator unchanged. -/
lemma foldl_dictStep_absent (k : Int) (l : FundMap) (h : ∀ p ∈ l, p.1 ≠ k) :
    ∀ init, l.foldl (dictStep k) init = init := by
  induction l with
  | nil => intro init; rfl
  | cons p ps ih =>
    intro init
    have hp : p.1 ≠ k := h p (by simp)
    rw [List.foldl_cons]
    rw [show dictStep k init p = init by simp [dictStep, hp]]
    exact ih (fun q hq => h q (by simp [hq])) init

/-- The lookup of a key bound in the list returns its last binding,
whatever came before. -/
lemma foldl_dictStep_last (k : Int) (v : Option Int) (l1 l2 : FundMap)
    (h : ∀ p ∈ l2, p.1 ≠ k) (init : Option (Option Int)) :
    (l1 ++ (k, v) :: l2).foldl (dictStep k) init = some v := by
  rw [List.foldl_append, List.foldl_cons]
  rw [show dictStep k (l1.foldl (dictStep k) init) (k, v) = some v by simp [dictStep]]
  exact foldl_dictStep_absent k l2 h (some v)

/-- A key bound nowhere in the list is absent from the dict. -/
lemma dictLookup_absent (k : Int) (l : FundMap) (h : ∀ p ∈ l, p.1 ≠ k) :
    dictLookup l k = none :=
  foldl_dictStep_absent k l h none

/-- The dict lookup returns the value of the last binding of the key. -/
lemma dictLookup_last (k : Int) (v : Option Int) (l1 l2 : FundMap)
    (h : ∀ p ∈ l2, p.1 ≠ k) :
    dictLookup (l1 ++ (k, v) :: l2) k = some v :=
  foldl_dictStep_last k v l1 l2 h none

/-! Helper lemmas about table columns. -/

/-- Setting a date column never touches the fund code column. -/
lemma codes_setDateColumn (t : Table) (d : String) (col : List (Option Int)) :
    (setDateColumn t d col).codes = t.codes := by
  unfold setDateColumn
  split <;> rfl

/-- Setting a date column never touches the fund name column. -/
lemma names_setDateColumn (t : Table) (d : String) (col : List (Option Int)) :
    (setDateColumn t d col).names = t.names := by
  unfold setDateColumn
  split <;> rfl

/-- Replacing the column named d in place leaves the lookup of any other
name unchanged. -/
lemma find?_replace_ne (l : List (String × List (Option Int))) (d d' : String)
    (col : List (Option Int)) (h : d' ≠ d) :
    (l.map (fun p => if p.1 = d then (d, col) else p)).find? (fun p => p.1 == d')
      = l.find? (fun p => p.1 == d') := by
  induction l with
  | nil => rfl
  | cons p ps ih =>
    by_cases hp : p.1 = d
    · have hd : (d == d') = false := by
        simp [Ne.symm h]
      have hp' : (p.1 == d') = false := by
        simp [hp, Ne.symm h]
      simp only [List.map_cons, if_pos hp, List.find?_cons, hd, hp']
      exact ih
    · simp only [List.map_cons, if_neg hp, List.find?_cons]
      cases hb : (p.1 == d') <;> simp [hb, ih]

/-- A name absent from the key list is not found. -/
lemma find?_not_contains (l : List (String × List (Option Int))) (d : String)
    (h : (l.map Prod.fst).contains d = false) :
    l.find? (fun p => p.1 == d) = none := by
  induction l with
  | nil => rfl
  | cons p ps ih =>
    simp only [List.map_cons, List.contains_cons, Bool.or_eq_false_iff] at h
    have hp : (p.1 == d) = false := by
      rcases h with ⟨h1, _⟩
      rw [beq_eq_false_iff_ne] at h1 ⊢
      exact fun hc => h1 hc.symm
    simp only [List.find?_cons, hp]
    exact ih h.2

/-- After replacing the column named d, looking d up finds the new column. -/
lemma find?_replace_self (l : List (String × List (Option Int))) (d : String)
    (col : List (Option Int)) (h : (l.map Prod.fst).contains d = true) :
    (l.map (fun p => if p.1 = d then (d, col) else p)).find? (fun p => p.1 == d)
      = some (d, col) := by
  induction l with
  | nil => simp at h
  | cons p ps ih =>
    by_cases hp : p.1 = d
    · simp only [List.map_cons, if_pos hp, List.find?_cons, beq_self_eq_true]
    · have hp' : (p.1 == d) = false := by simp [hp]
      simp only [List.map_cons, List.contains_cons] at h
      have hh : (ps.map Prod.fst).contains d = true := by
        rcases Bool.or_eq_true_iff.mp h with h1 | h1
        · exact absurd (eq_of_beq h1).symm hp
        · exact h1
      simp only [List.map_cons, if_neg hp, List.find?_cons, hp']
      exact ih hh

/-- Reading back the date column just assigned gives exactly the assigned
values. -/
lemma getColumn_setDateColumn_self (t : Table) (d : String)
    (col : List (Option Int)) :
    getColumn (setDateColumn t d col) d = some col := by
  unfold setDateColumn getColumn
  by_cases hc : (t.dateCols.map Prod.fst).contains d
  · rw [if_pos hc]
    rw [find?_replace_self t.dateCols d col hc]
    rfl
  · rw [if_neg hc]
    have hn : t.dateCols.find? (fun p => p.1 == d) = none :=
      find?_not_contains t.dateCols d (by simpa using hc)
    simp only [List.find?_append, hn, Option.none_or, List.find?_cons,
      beq_self_eq_true, Option.map_some]
    rfl

/-- Assigning the column named d leaves every other date column unchanged. -/
lemma getColumn_setDateColumn_ne (t : Table) (d d' : String)
    (col : List (Option Int)) (h : d' ≠ d) :
    getColumn (setDateColumn t d col) d' = getColumn t d' := by
  unfold setDateColumn getColumn
  by_cases hc : (t.dateCols.map Prod.fst).contains d
  · rw [if_pos hc, find?_replace_ne t.dateCols d d' col h]
  · rw [if_neg hc]
    have hd : (d == d') = false := by simp [Ne.symm h]
    simp only [List.find?_append, List.find?_cons, hd, List.find?_nil, Option.or_none]

/-! Characterization of the parser output. -/

/-- On a successfully parsed file, the output is exactly the per-row entry
map over the kept rows. -/
lemma read_file_data_eq_map (f : RawFile) (cols : List String)
    (rows : List (List Cell)) (ic ir : Nat) (m : List (Int × Option Int))
    (h1 : f.decoded = some (cols, rows))
    (h2 : resolve_cols cols = some (ic, ir))
    (h3 : read_file_data f = some m) :
    m = (keptRows ic rows).map (rowEntry (hasSub f.filename "深圳") ic ir) := by
  unfold read_file_data at h3
  rw [h1] at h3
  simp only [h2] at h3
  by_cases hb : (keptRows ic rows).all
      (fun r => ((toNumQ (r.getD ic Cell.na)).getD 0).den = 1)
  · rw [if_pos hb] at h3
    exact (Option.some_inj.mp h3).symm
  · rw [if_neg hb] at h3
    exact absurd h3 (by simp)

/-! Lemmas about the date extractor. -/

/-- A digit window one position further in the extended list. -/
lemma runAt_cons_succ (c : Char) (cs : List Char) (i : Nat) :
    runAt (c :: cs) (i + 1) = runAt cs i := by
  unfold runAt
  rw [List.drop_succ_cons]

/-- If no eight-digit window exists, the scan fails. -/
lemma find8_eq_none (l : List Char) (h : ∀ i, runAt l i = false) :
    find8 l = none := by
  induction l with
  | nil => rfl
  | cons c cs ih =>
    unfold find8
    rw [h 0]
    simp only [Bool.false_eq_true, if_false]
    exact ih (fun i => by rw [← runAt_cons_succ c cs i]; exact h (i + 1))

/-- If an eight-digit window starts at i and none starts earlier, the scan
returns the window at i. -/
lemma find8_eq_first (l : List Char) (i : Nat) (hi : runAt l i = true)
    (hmin : ∀ j, j < i → runAt l j = false) :
    find8 l = some ((l.drop i).take 8) := by
  induction l generalizing i with
  | nil =>
    exfalso
    simp [runAt] at hi
  | cons c cs ih =>
    match i with
    | 0 =>
      unfold find8
      rw [hi]
      simp
    | j + 1 =>
      unfold find8
      rw [hmin 0 (Nat.succ_pos j)]
      simp only [Bool.false_eq_true, if_false]
      rw [List.drop_succ_cons]
      exact ih j (by rw [← runAt_cons_succ]; exact hi)
        (fun j2 hj2 => by rw [← runAt_cons_succ]; exact hmin (j2 + 1) (by omega))

/-- Conversely, a successful scan exhibits a first window. -/
lemma find8_eq_some (l : List Char) (w : List Char) (h : find8 l = some w) :
    ∃ i, runAt l i = true ∧ (∀ j, j < i → runAt l j = false)
      ∧ w = (l.drop i).take 8 := by
  induction l with
  | nil => exact absurd h (by simp [find8])
  | cons c cs ih =>
    unfold find8 at h
    by_cases h0 : runAt (c :: cs) 0 = true
    · rw [h0] at h
      simp only [if_true, Option.some_inj] at h
      exact ⟨0, h0, fun j hj => absurd hj (by omega), h.symm⟩
    · rw [Bool.not_eq_true] at h0
      rw [h0] at h
      simp only [Bool.false_eq_true, if_false] at h
      obtain ⟨i, hi, hmin, hw⟩ := ih h
      refine ⟨i + 1, by rwa [runAt_cons_succ], ?_, by rwa [List.drop_succ_cons]⟩
      intro j hj
      match j with
      | 0 => exact h0
      | j2 + 1 => rw [runAt_cons_succ]; exact hmin j2 (by omega)

/-! The code-point order on strings: basic facts. -/

/-- The comparison is reflexive. -/
lemma charListLe_refl : ∀ l : List Char, charListLe l l = true
  | [] => rfl
  | c :: cs => by
    unfold charListLe
    rw [if_pos rfl]
    exact charListLe_refl cs

/-- The comparison is total. -/
lemma charListLe_total : ∀ a b : List Char,
    charListLe a b = true ∨ charListLe b a = true
  | [], _ => Or.inl rfl
  | _ :: _, [] => Or.inr rfl
  | a :: as, b :: bs => by
    by_cases hab : a = b
    · subst hab
      unfold charListLe
      rw [if_pos rfl, if_pos rfl]
      exact charListLe_total as bs
    · unfold charListLe
      rw [if_neg hab, if_neg (Ne.symm hab)]
      rcases lt_or_gt_of_ne hab with h | h
      · exact Or.inl (by simpa using h)
      · exact Or.inr (by simpa using h)

/-- The comparison is transitive. -/
lemma charListLe_trans : ∀ a b c : List Char,
    charListLe a b = true → charListLe b c = true → charListLe a c = true
  | [], _, _ => by intro _ _; rfl
  | a :: as, [], _ => by intro h _; exact absurd h (by simp [charListLe])
  | _ :: _, _ :: _, [] => by intro _ h; exact absurd h (by simp [charListLe])
  | a :: as, b :: bs, c :: cs => by
    intro h1 h2
    unfold charListLe at h1 h2 ⊢
    by_cases hab : a = b
    · subst hab
      rw [if_pos rfl] at h1
      by_cases hac : a = c
      · subst hac
        rw [if_pos rfl] at h2 ⊢
        exact charListLe_trans as bs cs h1 h2
      · rw [if_neg hac] at h2 ⊢
        exact h2
    · rw [if_neg hab] at h1
      by_cases hbc : b = c
      · subst hbc
        rw [if_neg hab]
        exact h1
      · rw [if_neg hbc] at h2
        have hlt : a < c := lt_trans (by simpa using h1) (by simpa using h2)
        rw [if_neg (ne_of_lt hlt)]
        simpa using hlt

/-- The comparison is antisymmetric. -/
lemma charListLe_antisymm : ∀ a b : List Char,
    charListLe a b = true → charListLe b a = true → a = b
  | [], [] => by intro _ _; rfl
  | [], _ :: _ => by intro _ h; exact absurd h (by simp [charListLe])
  | _ :: _, [] => by intro h _; exact absurd h (by simp [charListLe])
  | a :: as, b :: bs => by
    intro h1 h2
    unfold charListLe at h1 h2
    by_cases hab : a = b
    · subst hab
      rw [if_pos rfl] at h1 h2
      rw [charListLe_antisymm as bs h1 h2]
    · rw [if_neg hab] at h1
      rw [if_neg (Ne.symm hab)] at h2
      exact absurd (lt_trans (of_decide_eq_true h1) (of_decide_eq_true h2))
        (lt_irrefl a)

instance : IsTotal String (fun a b => strLe a b = true) :=
  ⟨fun a b => charListLe_total a.toList b.toList⟩

instance : IsTrans String (fun a b => strLe a b = true) :=
  ⟨fun a b c => charListLe_trans a.toList b.toList c.toList⟩

/-- strLe is antisymmetric on strings. -/
lemma strLe_antisymm (a b : String) (h1 : strLe a b = true)
    (h2 : strLe b a = true) : a = b :=
  String.ext (charListLe_antisymm a.toList b.toList h1 h2)

/-- strLe is reflexive on strings. -/
lemma strLe_refl (a : String) : strLe a a = true := charListLe_refl a.toList

/-! Lemmas about column reindexing and sorting. -/

/-- A name among the keys is found, and the found pair carries that name. -/
lemma find?_key_mem (P : List (String × List (Option Int))) (d : String)
    (h : d ∈ P.map Prod.fst) :
    ∃ p, P.find? (fun p => p.1 == d) = some p ∧ p.1 = d ∧ p ∈ P := by
  cases hfind : P.find? (fun p => p.1 == d) with
  | none =>
    obtain ⟨p, hp, hfst⟩ := List.mem_map.mp h
    have := List.find?_eq_none.mp hfind p hp
    simp [hfst] at this
  | some p =>
    have h1 : (p.1 == d) = true := (List.find?_eq_some.mp hfind).1
    exact ⟨p, rfl, eq_of_beq h1, List.mem_of_find?_eq_some hfind⟩

/-- Reindexing by a list of present names yields columns with exactly those
names, in the same order. -/
lemma map_fst_filterMap_lookup (P : List (String × List (Option Int)))
    (names : List String) (h : ∀ d ∈ names, d ∈ P.map Prod.fst) :
    (names.filterMap (fun d => P.find? (fun p => p.1 == d))).map Prod.fst
      = names := by
  induction names with
  | nil => rfl
  | cons d ds ih =>
    obtain ⟨p, hfind, hfst, _⟩ := find?_key_mem P d (h d (by simp))
    simp only [List.filterMap_cons, hfind, List.map_cons, hfst]
    rw [ih (fun x hx => h x (by simp [hx]))]

/-- With distinct keys, looking up the key of a member finds that member. -/
lemma find?_key_self (P : List (String × List (Option Int)))
    (hnd : (P.map Prod.fst).Nodup) (p : String × List (Option Int))
    (hp : p ∈ P) : P.find? (fun q => q.1 == p.1) = some p := by
  induction P with
  | nil => simp at hp
  | cons a as ih =>
    rw [List.map_cons, List.nodup_cons] at hnd
    rcases List.mem_cons.mp hp with rfl | hmem
    · simp [List.find?_cons]
    · have hne : (a.1 == p.1) = false := by
        rw [beq_eq_false_iff_ne]
        intro hc
        exact hnd.1 (hc ▸ List.mem_map_of_mem Prod.fst hmem)
      simp only [List.find?_cons, hne]
      exact ih hnd.2 hmem

/-- With distinct keys, reindexing by the full key list is the identity. -/
lemma filterMap_lookup_key_list (P : List (String × List (Option Int)))
    (hnd : (P.map Prod.fst).Nodup) :
    (P.map Prod.fst).filterMap (fun d => P.find? (fun p => p.1 == d)) = P := by
  rw [List.filterMap_map]
  have hcongr : ∀ p ∈ P,
      ((fun d => P.find? (fun q => q.1 == d)) ∘ Prod.fst) p = some p := by
    intro p hp
    exact find?_key_self P hnd p hp
  calc P.filterMap ((fun d => P.find? (fun q => q.1 == d)) ∘ Prod.fst)
      = P.filterMap some := List.filterMap_congr hcongr
    _ = P := List.filterMap_some P

/-- The sorted table keeps exactly the original date columns. -/
lemma sort_columns_perm (t : Table) (h : (t.dateCols.map Prod.fst).Nodup) :
    (sort_columns t).dateCols.Perm t.dateCols := by
  have h1 : (((t.dateCols.map Prod.fst).insertionSort
      (fun a b => strLe a b = true)).filterMap
      (fun d => t.dateCols.find? (fun p => p.1 == d))).Perm
      ((t.dateCols.map Prod.fst).filterMap
        (fun d => t.dateCols.find? (fun p => p.1 == d))) :=
    (List.perm_insertionSort _ _).filterMap _
  rw [filterMap_lookup_key_list t.dateCols h] at h1
  exact h1

/-- The names of the sorted table are the sorted names. -/
lemma sort_columns_map_fst (t : Table) :
    (sort_columns t).dateCols.map Prod.fst
      = (t.dateCols.map Prod.fst).insertionSort (fun a b => strLe a b = true) := by
  show (((t.dateCols.map Prod.fst).insertionSort
      (fun a b => strLe a b = true)).filterMap
      (fun d => t.dateCols.find? (fun p => p.1 == d))).map Prod.fst = _
  apply map_fst_filterMap_lookup
  intro d hd
  exact ((List.perm_insertionSort _ _).mem_iff).mp hd

/-- Sorting does not touch the fund code column. -/
lemma sort_columns_codes (t : Table) : (sort_columns t).codes = t.codes := rfl

/-- Sorting does not touch the fund name column. -/
lemma sort_columns_names (t : Table) : (sort_columns t).names = t.names := rfl

/-- In a sorted list, every element compares below the last one. -/
lemma sorted_getLast_max (a : String) :
    ∀ l : List String, l.Sorted (fun a b => strLe a b = true) →
      l.getLast? = some a → ∀ x ∈ l, strLe x a = true
  | [] => by simp
  | [b] => by
    intro hs hl x hx
    simp at hl hx
    subst hl
    subst hx
    exact strLe_refl x
  | b :: c :: cs => by
    intro hs hl x hx
    rw [List.getLast?_cons_cons] at hl
    have hs' := List.sorted_cons.mp hs
    rcases List.mem_cons.mp hx with rfl | hmem
    · have ha : a ∈ c :: cs := List.mem_of_mem_getLast? hl
      exact hs'.1 a ha
    · exact sorted_getLast_max a (c :: cs) hs'.2 hl x hmem

/-! Lemmas about the summary. -/

/-- The non-null values are as many as the non-null slots. -/
lemma length_filterMap_id (l : List (Option Int)) :
    (l.filterMap id).length = (l.filter Option.isSome).length := by
  induction l with
  | nil => rfl
  | cons o os ih => cases o <;> simp [ih]

/-! Lemmas about the per-date merge. -/

/-- The merge writes the mapped column and touches nothing else. -/
lemma process_date_group_def (d : String) (files : List RawFile) (t : Table) :
    process_date_group d files t = setDateColumn t d
      (t.codes.map (fun code =>
        code.bind (fun c => (dictLookup (combined_map files) c).join))) := rfl

/-- The merge never touches the fund code column. -/
lemma codes_process_date_group (d : String) (files : List RawFile) (t : Table) :
    (process_date_group d files t).codes = t.codes :=
  codes_setDateColumn t d _

/-- Reading back the merged date column gives the mapped values. -/
lemma getColumn_process_date_group_self (d : String) (files : List RawFile)
    (t : Table) :
    getColumn (process_date_group d files t) d
      = some (t.codes.map (fun code =>
          code.bind (fun c => (dictLookup (combined_map files) c).join))) :=
  getColumn_setDateColumn_self t d _

/-! Sample data used by the witnesses. -/

/-- Header names of the sample files. -/
def sampleCols : List String := ["证券代码", "证券简称", "折算率"]

/-- Data rows of the primary-exchange sample file. -/
def shRows : List (List Cell) := [[Cell.num 511120, Cell.str "广发", Cell.num 85]]

/-- A primary-exchange sample file: one row, code 511120, rate 85. -/
def shFile : RawFile := ⟨"上海回购折算率20251124.xls", some (sampleCols, shRows)⟩

/-- Data rows of the secondary-exchange sample file: code 511120 bound
twice, with raw rates 1 and 2 that the unit correction scales to 100 and
200. -/
def szRows : List (List Cell) :=
  [[Cell.num 511120, Cell.str "广发", Cell.num 1],
   [Cell.num 511120, Cell.str "广发", Cell.num 2]]

/-- A secondary-exchange sample file (marker in the filename). -/
def szFile : RawFile := ⟨"深圳回购折算率20251124.csv", some (sampleCols, szRows)⟩

/-- A sample file on which every decode path fails. -/
def badFile : RawFile := ⟨"乱码20251124.xls", none⟩

/-- A sample accumulator table with one historical date column. -/
def sampleTable : Table :=
  ⟨[some 511120, some 159400], ["广发", "平安"],
   [("2025/11/20", [some 80, some 81])]⟩

/-- A sample table whose date columns are stored out of order. -/
def messyTable : Table :=
  ⟨[some 511120], ["广发"],
   [("2025/11/24", [some 85]), ("2025/11/20", [some 80, none])]⟩

lemma hasSub_sh : hasSub "上海回购折算率20251124.xls" "深圳" = false := by decide

lemma hasSub_sz : hasSub "深圳回购折算率20251124.csv" "深圳" = true := by decide

lemma resolve_sample : resolve_cols ["证券代码", "证券简称", "折算率"] = some (0, 2) := by
  decide

/-- Concrete evaluation of the parser on the primary-exchange sample. -/
lemma eval_shFile : read_file_data shFile = some [(511120, some 85)] := by
  norm_num [read_file_data, shFile, sampleCols, shRows, resolve_sample, keptRows,
    rowEntry, codeInt, toNumQ, isNA, scaleRate, hasSub_sh, roundHalfEven_den_one]

/-- Concrete evaluation of the parser on the secondary-exchange sample. -/
lemma eval_szFile :
    read_file_data szFile = some [(511120, some 100), (511120, some 200)] := by
  norm_num [read_file_data, szFile, sampleCols, szRows, resolve_sample, keptRows,
    rowEntry, codeInt, toNumQ, isNA, scaleRate, hasSub_sz, roundHalfEven_den_one]

/-! The claims. -/

/-- C4: the date extractor searches the basename for the first run of eight
consecutive digits; when one starts at position i (and none earlier) it
returns that window sliced as YYYY/MM/DD, and when no eight-digit run exists
anywhere it returns none. -/
theorem extractor_first_8_digit_run (fn : String) :
    ((∀ i, runAt (basename fn).toList i = false) →
      extract_date_from_filename fn = none) ∧
    (∀ i, runAt (basename fn).toList i = true →
      (∀ j, j < i → runAt (basename fn).toList j = false) →
      extract_date_from_filename fn
        = some (format8 (((basename fn).toList.drop i).take 8))) := by
  constructor
  · intro h
    unfold extract_date_from_filename
    rw [find8_eq_none _ h]
    rfl
  · intro i hi hmin
    unfold extract_date_from_filename
    rw [find8_eq_first _ i hi hmin]
    rfl

/-- C4 witness: a concrete filename with its digit run at offset 4. -/
theorem extractor_first_8_digit_run_witness :
    extract_date_from_filename "ETF_20251124.xls" = some "2025/11/24" := by
  have h := (extractor_first_8_digit_run "ETF_20251124.xls").2 4 (by decide) (by decide)
  rw [h]
  decide

/-- C10: when exactly one of the two header substring searches succeeds, the
positional fallback discards the successful match as well and selects column
0 for the code and column 2 (column 1 on a two-column frame) for the rate. -/
theorem fallback_replaces_both (cols : List String)
    (h : ((cols.findIdx? (fun c => hasSub c "代码")).isSome
            ∧ cols.findIdx? (fun c => hasSub c "折算") = none)
       ∨ (cols.findIdx? (fun c => hasSub c "代码") = none
            ∧ (cols.findIdx? (fun c => hasSub c "折算")).isSome))
    (hlen : 2 ≤ cols.length) :
    resolve_cols cols = some (0, if 2 < cols.length then 2 else 1) := by
  unfold resolve_cols
  rcases h with ⟨h1, h2⟩ | ⟨h1, h2⟩
  · obtain ⟨i, hi⟩ := Option.isSome_iff_exists.mp h1
    rw [hi, h2]
    by_cases hl : 2 < cols.length
    · simp [hl]
    · have h2len : cols.length = 2 := by omega
      simp [h2len]
  · obtain ⟨j, hj⟩ := Option.isSome_iff_exists.mp h2
    rw [hj, h1]
    by_cases hl : 2 < cols.length
    · simp [hl]
    · have h2len : cols.length = 2 := by omega
      simp [h2len]

/-- C10 witness: a three-column header where only the code search succeeds;
the fallback still selects positions 0 and 2. -/
theorem fallback_replaces_both_witness :
    resolve_cols ["证券代码", "甲", "乙"] = some (0, 2) := by
  have h := fallback_replaces_both ["证券代码", "甲", "乙"]
    (Or.inl ⟨by decide, by decide⟩) (by decide)
  simpa using h

/-- C3: on a successfully parsed file every output rate is the half-even
rounding of the raw rate multiplied by 100 exactly when the filename
contains the secondary-exchange marker, and with no marker the raw rate is
rounded unscaled. -/
theorem unit_correction_iff_marker (f : RawFile) (cols : List String)
    (rows : List (List Cell)) (ic ir : Nat) (m : List (Int × Option Int))
    (h1 : f.decoded = some (cols, rows))
    (h2 : resolve_cols cols = some (ic, ir))
    (h3 : read_file_data f = some m) :
    m = (keptRows ic rows).map (fun r =>
      (codeInt (r.getD ic Cell.na),
       (toNumQ (r.getD ir Cell.na)).map (fun q =>
         roundHalfEven (if hasSub f.filename "深圳" = true then q * 100 else q)))) ∧
    (hasSub f.filename "深圳" = false →
      m = (keptRows ic rows).map (fun r =>
        (codeInt (r.getD ic Cell.na),
         (toNumQ (r.getD ir Cell.na)).map (fun q => roundHalfEven q)))) := by
  have hm := read_file_data_eq_map f cols rows ic ir m h1 h2 h3
  constructor
  · rw [hm]
    rfl
  · intro hmk
    rw [hm]
    simp [rowEntry, scaleRate, hmk]

/-- C3 witness: the marked secondary-exchange sample gets its rates scaled
by 100. -/
theorem unit_correction_iff_marker_witness :
    ([((511120 : Int), some (100 : Int)), (511120, some 200)]
      = (keptRows 0 szRows).map (fun r =>
        (codeInt (r.getD 0 Cell.na),
         (toNumQ (r.getD 2 Cell.na)).map (fun q =>
           roundHalfEven (if hasSub szFile.filename "深圳" = true then q * 100 else q))))) ∧
    (hasSub szFile.filename "深圳" = false →
      [((511120 : Int), some (100 : Int)), (511120, some 200)]
        = (keptRows 0 szRows).map (fun r =>
          (codeInt (r.getD 0 Cell.na),
           (toNumQ (r.getD 2 Cell.na)).map (fun q => roundHalfEven q)))) :=
  unit_correction_iff_marker szFile sampleCols szRows 0 2
    [(511120, some 100), (511120, some 200)] rfl resolve_sample eval_szFile

/-- C9: every entry of the parser output comes from a kept row; its rate is
null when the raw rate is non-numeric, and otherwise it is an integer within
one half of the unit-corrected raw rate, that is, a nearest integer. -/
theorem rates_rounded_nullable (f : RawFile) (cols : List String)
    (rows : List (List Cell)) (ic ir : Nat) (m : List (Int × Option Int))
    (h1 : f.decoded = some (cols, rows))
    (h2 : resolve_cols cols = some (ic, ir))
    (h3 : read_file_data f = some m) :
    ∀ e ∈ m, ∃ r ∈ keptRows ic rows,
      e.1 = codeInt (r.getD ic Cell.na) ∧
      (toNumQ (r.getD ir Cell.na) = none → e.2 = none) ∧
      (∀ q, toNumQ (r.getD ir Cell.na) = some q →
        ∃ n : Int, e.2 = some n
          ∧ |(n : ℚ) - scaleRate (hasSub f.filename "深圳") q| ≤ 1 / 2) := by
  have hm := read_file_data_eq_map f cols rows ic ir m h1 h2 h3
  intro e he
  rw [hm] at he
  obtain ⟨r, hr, rfl⟩ := List.mem_map.mp he
  refine ⟨r, hr, rfl, ?_, ?_⟩
  · intro h0
    show Option.map _ (toNumQ (r.getD ir Cell.na)) = none
    rw [h0]
    rfl
  · intro q hq
    refine ⟨roundHalfEven (scaleRate (hasSub f.filename "深圳") q), ?_,
      abs_roundHalfEven_sub _⟩
    show Option.map _ (toNumQ (r.getD ir Cell.na)) = _
    rw [hq]
    rfl

/-- C9 witness: the first entry of the parsed secondary-exchange sample. -/
theorem rates_rounded_nullable_witness :
    ∃ r ∈ keptRows 0 szRows,
      ((511120 : Int), some (100 : Int)).1 = codeInt (r.getD 0 Cell.na) ∧
      (toNumQ (r.getD 2 Cell.na) = none → ((511120 : Int), some (100 : Int)).2 = none) ∧
      (∀ q, toNumQ (r.getD 2 Cell.na) = some q →
        ∃ n : Int, ((511120 : Int), some (100 : Int)).2 = some n
          ∧ |(n : ℚ) - scaleRate (hasSub szFile.filename "深圳") q| ≤ 1 / 2) :=
  rates_rounded_nullable szFile sampleCols szRows 0 2
    [(511120, some 100), (511120, some 200)] rfl resolve_sample eval_szFile
    (511120, some 100) (by decide)

/-- C1: processing a date group replaces only the column of the processed
date; every other date column already present keeps exactly its prior
values. -/
theorem merge_preserves_other_dates (t : Table) (d : String)
    (files : List RawFile) (d' : String) (col : List (Option Int))
    (hne : d' ≠ d) (hcol : getColumn t d' = some col) :
    getColumn (process_date_group d files t) d' = some col := by
  rw [process_date_group_def, getColumn_setDateColumn_ne t d d' _ hne]
  exact hcol

/-- C1 witness: merging 2025/11/24 leaves the stored 2025/11/20 column
untouched. -/
theorem merge_preserves_other_dates_witness :
    getColumn (process_date_group "2025/11/24" [] sampleTable) "2025/11/20"
      = some [some 80, some 81] :=
  merge_preserves_other_dates sampleTable "2025/11/24" [] "2025/11/20"
    [some 80, some 81] (by decide) (by decide)

/-- C7: merging the same date group twice in a row yields the same date
column as merging it once. -/
theorem merge_idempotent (d : String) (files : List RawFile) (t : Table) :
    getColumn (process_date_group d files (process_date_group d files t)) d
      = getColumn (process_date_group d files t) d := by
  rw [getColumn_process_date_group_self, getColumn_process_date_group_self,
    codes_process_date_group]

/-- C2: when a fund code is bound in the last file of the date group, the
merged date column carries the value of the last binding of that code in
that file: the later file beats earlier files, and within one file the last
occurrence beats earlier ones. -/
theorem last_write_wins (d : String) (t : Table) (files : List RawFile)
    (f : RawFile) (m l1 l2 : FundMap) (k : Int) (v : Option Int) (i : Nat)
    (hread : read_file_data f = some m)
    (hsplit : m = l1 ++ (k, v) :: l2)
    (hlast : ∀ p ∈ l2, p.1 ≠ k)
    (hcode : t.codes[i]? = some (some k)) :
    ∃ col, getColumn (process_date_group d (files ++ [f]) t) d = some col
      ∧ col[i]? = some v := by
  refine ⟨_, getColumn_process_date_group_self d (files ++ [f]) t, ?_⟩
  rw [List.getElem?_map _ _ i, hcode]
  have hcm : combined_map (files ++ [f]) = combined_map files ++ m := by
    simp [combined_map, List.filterMap_append, hread]
  show some ((dictLookup (combined_map (files ++ [f])) k).join) = some v
  rw [hcm, hsplit, ← List.append_assoc]
  rw [dictLookup_last k v (combined_map files ++ l1) l2 hlast]
  rfl

/-- C2 witness: with the primary sample first and the secondary sample
second, code 511120 takes the value 200 of the last binding in the second
file. -/
theorem last_write_wins_witness :
    ∃ col, getColumn (process_date_group "2025/11/24" [shFile, szFile]
        sampleTable) "2025/11/24" = some col
      ∧ col[0]? = some (some 200) :=
  last_write_wins "2025/11/24" sampleTable [shFile] szFile
    [(511120, some 100), (511120, some 200)] [(511120, some 100)] [] 511120
    (some 200) 0 eval_szFile rfl (by simp) (by decide)

/-- C6: a file whose read fails contributes nothing: the date group is
processed exactly as if the file were absent, and a fund code bound by no
successfully read file of the group gets a null value in the date column. -/
theorem failed_file_skipped (d : String) (t : Table) (fs1 fs2 : List RawFile)
    (bad : RawFile) (hbad : read_file_data bad = none) :
    process_date_group d (fs1 ++ bad :: fs2) t
      = process_date_group d (fs1 ++ fs2) t ∧
    (∀ (i : Nat) (k : Int), t.codes[i]? = some (some k) →
      dictLookup (combined_map (fs1 ++ fs2)) k = none →
      ∃ col, getColumn (process_date_group d (fs1 ++ bad :: fs2) t) d = some col
        ∧ col[i]? = some none) := by
  have hcm : combined_map (fs1 ++ bad :: fs2) = combined_map (fs1 ++ fs2) := by
    simp [combined_map, List.filterMap_append, List.filterMap_cons, hbad]
  constructor
  · rw [process_date_group_def, process_date_group_def, hcm]
  · intro i k hk habs
    refine ⟨_, getColumn_process_date_group_self _ _ _, ?_⟩
    rw [List.getElem?_map _ _ i, hk]
    show some ((dictLookup (combined_map (fs1 ++ bad :: fs2)) k).join) = some none
    rw [hcm, habs]
    rfl

/-- C6 witness: a bad file in the group changes nothing, and fund 159400,
bound by no readable file, stays null on that date. -/
theorem failed_file_skipped_witness :
    process_date_group "2025/11/24" [shFile, badFile] sampleTable
      = process_date_group "2025/11/24" [shFile] sampleTable ∧
    (∀ (i : Nat) (k : Int), sampleTable.codes[i]? = some (some k) →
      dictLookup (combined_map [shFile]) k = none →
      ∃ col, getColumn (process_date_group "2025/11/24" [shFile, badFile]
          sampleTable) "2025/11/24" = some col
        ∧ col[i]? = some none) :=
  failed_file_skipped "2025/11/24" sampleTable [shFile] [] badFile rfl

/-- C8: sorting the columns keeps the identity columns first and unchanged,
keeps exactly the original date columns, and puts the date names in strictly
increasing code-point order. -/
theorem sorter_canonical_order (t : Table)
    (h : (t.dateCols.map Prod.fst).Nodup) :
    (sort_columns t).codes = t.codes ∧
    (sort_columns t).names = t.names ∧
    columns (sort_columns t)
      = "基金代码" :: "基金简称" :: (sort_columns t).dateCols.map Prod.fst ∧
    (sort_columns t).dateCols.Perm t.dateCols ∧
    ((sort_columns t).dateCols.map Prod.fst).Sorted
      (fun a b => strLe a b = true ∧ a ≠ b) := by
  refine ⟨rfl, rfl, rfl, sort_columns_perm t h, ?_⟩
  rw [sort_columns_map_fst]
  have hsorted := List.sorted_insertionSort (fun a b : String => strLe a b = true)
    (t.dateCols.map Prod.fst)
  have hnd : ((t.dateCols.map Prod.fst).insertionSort
      (fun a b => strLe a b = true)).Nodup :=
    (List.perm_insertionSort _ _).nodup_iff.mpr h
  exact hsorted.and hnd

/-- C8 witness: a table with its two date columns stored newest-first comes
out identity-first and dates strictly ascending. -/
theorem sorter_canonical_order_witness :
    (sort_columns messyTable).codes = messyTable.codes ∧
    (sort_columns messyTable).names = messyTable.names ∧
    columns (sort_columns messyTable)
      = "基金代码" :: "基金简称" :: (sort_columns messyTable).dateCols.map Prod.fst ∧
    (sort_columns messyTable).dateCols.Perm messyTable.dateCols ∧
    ((sort_columns messyTable).dateCols.map Prod.fst).Sorted
      (fun a b => strLe a b = true ∧ a ≠ b) :=
  sorter_canonical_order messyTable (by decide)

/-- C5: on a table with at least one date column, the summary reports the
name of the last date column after the ascending sort (which every date
column name compares below), the count of non-null values in that column,
and a mean that is a two-decimal quantity within half a cent of the exact
arithmetic mean of exactly those non-null values. -/
theorem summary_latest_column (t : Table) (h : t.dateCols ≠ []) :
    ∃ latest col cnt avg,
      (sort_columns t).dateCols.getLast? = some (latest, col) ∧
      buildSummary (sort_columns t) = some (latest, cnt, avg) ∧
      (∀ d ∈ (sort_columns t).dateCols.map Prod.fst, strLe d latest = true) ∧
      cnt = (col.filter Option.isSome).length ∧
      (0 < cnt →
        |avg - ((col.filterMap id).map (fun n => (n : ℚ))).sum / (cnt : ℚ)| ≤ 1 / 200
        ∧ (avg * 100).den = 1) := by
  have hne : (sort_columns t).dateCols ≠ [] := by
    intro hc
    have h1 : (sort_columns t).dateCols.map Prod.fst = [] := by
      rw [hc]
      rfl
    rw [sort_columns_map_fst] at h1
    have h2 := List.perm_insertionSort (fun a b : String => strLe a b = true)
      (t.dateCols.map Prod.fst)
    rw [h1] at h2
    have h3 : t.dateCols.map Prod.fst = [] := (List.Perm.nil_eq h2).symm
    exact h (List.map_eq_nil_iff.mp h3)
  obtain ⟨p, hp⟩ := Option.isSome_iff_exists.mp (List.getLast?_isSome.mpr hne)
  obtain ⟨latest, col⟩ := p
  refine ⟨latest, col, (col.filterMap id).length,
    if 0 < (col.filterMap id).length
    then round2 (((col.filterMap id).map (fun n => (n : ℚ))).sum
      / ((col.filterMap id).length : ℚ))
    else 0, hp, ?_, ?_, length_filterMap_id col, ?_⟩
  · unfold buildSummary
    rw [hp]
  · intro d hd
    have hgl : ((sort_columns t).dateCols.map Prod.fst).getLast? = some latest := by
      rw [List.getLast?_map Prod.fst ((sort_columns t).dateCols), hp]
      rfl
    have hsorted : ((sort_columns t).dateCols.map Prod.fst).Sorted
        (fun a b => strLe a b = true) := by
      rw [sort_columns_map_fst]
      exact List.sorted_insertionSort _ _
    exact sorted_getLast_max latest _ hsorted hgl d hd
  · intro hpos
    rw [if_pos hpos]
    exact ⟨abs_round2_sub _, round2_mul_100_den _⟩

/-- C5 witness: the summary of the sample table with two date columns. -/
theorem summary_latest_column_witness :
    messyTable.dateCols ≠ [] ∧
    ∃ latest col cnt avg,
      (sort_columns messyTable).dateCols.getLast? = some (latest, col) ∧
      buildSummary (sort_columns messyTable) = some (latest, cnt, avg) ∧
      (∀ d ∈ (sort_columns messyTable).dateCols.map Prod.fst,
        strLe d latest = true) ∧
      cnt = (col.filter Option.isSome).length ∧
      (0 < cnt →
        |avg - ((col.filterMap id).map (fun n => (n : ℚ))).sum / (cnt : ℚ)| ≤ 1 / 200
        ∧ (avg * 100).den = 1) :=
  ⟨by decide, summary_latest_column messyTable (by decide)⟩

end BondEtf
